import Mathlib

/-!
Verification of the move-selection engine in `src/hooks/use-chess-engine.tsx`.

The engine consumes the rules of chess through an external "Rules Authority"
collaborator (the `chess.js` library, not part of this repository).  Following
the specification (sections 3 and 6), the Rules Authority is modelled here as a
faithful implementation of the rules of chess over an explicit `Position`
value: legal-move generation, move application/undo, check/checkmate/draw
detection, FEN serialization (the canonical position key) and algebraic
notation.  Every definition in the `Engine` section below is a direct
translation of the corresponding function of `use-chess-engine.tsx`.
-/

set_option maxRecDepth 100000

set_option maxHeartbeats 4000000

namespace ChessSpec

/-- Piece colors. -/
inductive Color where
  | white
  | black
deriving DecidableEq, Repr

/-- Opposite color. -/
def Color.other : Color → Color
  | .white => .black
  | .black => .white

/-- Piece types, named as in the source (`p`, `n`, `b`, `r`, `q`, `k`). -/
inductive PType where
  | p
  | n
  | b
  | r
  | q
  | k
deriving DecidableEq, Repr

/-- A piece is a color together with a piece type. -/
structure Piece where
  color : Color
  ptype : PType
deriving DecidableEq, Repr

/-- Modelled from the spec: the Rules Authority `boardSnapshot` is an 8x8 grid
of optional pieces, row-major from the black side (row 0 is rank 8), exactly
the shape returned by `game.board()` in the source. -/
def Board := List (List (Option Piece))
deriving DecidableEq

/-- Piece at row `r` (0 = rank 8) and file `f` (0 = file a). -/
def Board.at (bd : Board) (r f : Nat) : Option Piece :=
  (bd.getD r []).getD f none

/-- Piece at a flat square index `r*8+f` (0 = a8, 63 = h1), the square
numbering used by the engine's piece-square tables. -/
def Board.atIdx (bd : Board) (sq : Nat) : Option Piece :=
  bd.at (sq / 8) (sq % 8)

/-- Replace the entry of a row. -/
def setInRow (row : List (Option Piece)) (f : Nat) (v : Option Piece) :
    List (Option Piece) :=
  row.set f v

/-- Place `v` at row `r`, file `f`. -/
def Board.put (bd : Board) (r f : Nat) (v : Option Piece) : Board :=
  List.set bd r (setInRow (bd.getD r []) f v)

/-- Place `v` at a flat square index. -/
def Board.putIdx (bd : Board) (sq : Nat) (v : Option Piece) : Board :=
  bd.put (sq / 8) (sq % 8) v

/-- Modelled from the spec: a full game position as held by the Rules
Authority — piece placement, side to move, castling rights, en-passant target
square and the move counters (spec section 3, "Position"). -/
structure Position where
  board : Board
  turn : Color
  castleWK : Bool
  castleWQ : Bool
  castleBK : Bool
  castleBQ : Bool
  ep : Option (Fin 64)
  halfmove : Nat
  fullmove : Nat
deriving DecidableEq

/-- Modelled from the spec: the Move record produced by the Rules Authority
(spec section 3, "Move"): origin, destination, moving piece, optional capture,
optional promotion, plus the flags needed to apply the move. -/
structure Move where
  fromSq : Nat
  toSq : Nat
  color : Color
  ptype : PType
  captured : Option PType
  promo : Option PType
  isEP : Bool
  castleKs : Bool
  castleQs : Bool
  isDouble : Bool
deriving DecidableEq, Repr

/-- Square index from integer coordinates, when on the board. -/
def sqIdx (r f : Int) : Nat := (r * 8 + f).toNat

/-- True when the integer coordinates denote a board square. -/
def onBoard (r f : Int) : Bool := 0 ≤ r && r < 8 && 0 ≤ f && f < 8

/-- Piece lookup by integer coordinates (none when off the board). -/
def Board.atI (bd : Board) (r f : Int) : Option Piece :=
  if onBoard r f then bd.at r.toNat f.toNat else none

/-- Knight move deltas, in the Rules Authority's enumeration order. -/
def knightDeltas : List (Int × Int) :=
  [(-1, -2), (-2, -1), (-2, 1), (-1, 2), (1, 2), (2, 1), (2, -1), (1, -2)]

/-- Bishop ray directions, in the Rules Authority's enumeration order. -/
def bishopDirs : List (Int × Int) := [(-1, -1), (-1, 1), (1, 1), (1, -1)]

/-- Rook ray directions, in the Rules Authority's enumeration order. -/
def rookDirs : List (Int × Int) := [(-1, 0), (0, 1), (1, 0), (0, -1)]

/-- Queen and king directions, in the Rules Authority's enumeration order. -/
def royalDirs : List (Int × Int) :=
  [(-1, -1), (-1, 0), (-1, 1), (0, 1), (1, 1), (1, 0), (1, -1), (0, -1)]

/-- Walk one sliding ray from `(r, f)` in direction `(dr, df)`, collecting the
destination squares: empty squares are collected and the walk continues, a
square holding an enemy piece is collected (a capture) and the walk stops, a
square holding an own piece stops the walk. `fuel` bounds the walk (7 steps
suffice on an 8x8 board). -/
def slideRay (bd : Board) (c : Color) : Nat → Int → Int → Int → Int →
    List (Nat × Option PType)
  | 0, _, _, _, _ => []
  | fuel + 1, r, f, dr, df =>
    let r2 := r + dr
    let f2 := f + df
    if onBoard r2 f2 then
      match bd.atI r2 f2 with
      | none => (sqIdx r2 f2, none) :: slideRay bd c fuel r2 f2 dr df
      | some pc => if pc.color = c then [] else [(sqIdx r2 f2, some pc.ptype)]
    else []

/-- Destination squares (with the captured piece type, if any) for a
non-pawn, non-castling move of piece `pt` from `(r, f)`. -/
def pieceTargets (bd : Board) (c : Color) (pt : PType) (r f : Int) :
    List (Nat × Option PType) :=
  match pt with
  | .n =>
    knightDeltas.filterMap fun d =>
      let r2 := r + d.1
      let f2 := f + d.2
      if onBoard r2 f2 then
        match bd.atI r2 f2 with
        | none => some (sqIdx r2 f2, none)
        | some pc => if pc.color = c then none else some (sqIdx r2 f2, some pc.ptype)
      else none
  | .b => bishopDirs.foldr (fun d acc => slideRay bd c 7 r f d.1 d.2 ++ acc) []
  | .r => rookDirs.foldr (fun d acc => slideRay bd c 7 r f d.1 d.2 ++ acc) []
  | .q => royalDirs.foldr (fun d acc => slideRay bd c 7 r f d.1 d.2 ++ acc) []
  | .k =>
    royalDirs.filterMap fun d =>
      let r2 := r + d.1
      let f2 := f + d.2
      if onBoard r2 f2 then
        match bd.atI r2 f2 with
        | none => some (sqIdx r2 f2, none)
        | some pc => if pc.color = c then none else some (sqIdx r2 f2, some pc.ptype)
      else none
  | .p => []

/-- Promotion piece choices, in the Rules Authority's enumeration order. -/
def promoChoices : List PType := [.q, .r, .b, .n]

/-- Build the (possibly promoting) pawn moves for one origin/destination
pair. -/
def pawnMoves (c : Color) (fromSq toSq : Nat) (capt : Option PType)
    (isEP isDouble : Bool) : List Move :=
  let lastRow : Nat := match c with | .white => 0 | .black => 7
  if toSq / 8 = lastRow then
    promoChoices.map fun pr =>
      ⟨fromSq, toSq, c, .p, capt, some pr, isEP, false, false, false⟩
  else
    [⟨fromSq, toSq, c, .p, capt, none, isEP, false, false, isDouble⟩]

/-- Pseudo-legal pawn moves from `(r, f)`: single push, double push, then the
two diagonal captures (including en passant), in the Rules Authority's
enumeration order. -/
def pawnGen (pos : Position) (c : Color) (r f : Int) : List Move :=
  let dir : Int := match c with | .white => -1 | .black => 1
  let startRow : Int := match c with | .white => 6 | .black => 1
  let fromSq := sqIdx r f
  let push :=
    if onBoard (r + dir) f && (pos.board.atI (r + dir) f).isNone then
      pawnMoves c fromSq (sqIdx (r + dir) f) none false false
    else []
  let dbl :=
    if r = startRow && (pos.board.atI (r + dir) f).isNone &&
        (pos.board.atI (r + 2 * dir) f).isNone then
      [⟨fromSq, sqIdx (r + 2 * dir) f, c, .p, none, none, false, false, false, true⟩]
    else []
  let capDeltas : List Int := match c with | .white => [-1, 1] | .black => [1, -1]
  let caps := capDeltas.foldr (fun df acc =>
    let r2 := r + dir
    let f2 := f + df
    (if onBoard r2 f2 then
      match pos.board.atI r2 f2 with
      | some pc =>
        if pc.color = c then [] else pawnMoves c fromSq (sqIdx r2 f2) (some pc.ptype) false false
      | none =>
        if pos.ep.map Fin.val = some (sqIdx r2 f2) then
          [⟨fromSq, sqIdx r2 f2, c, .p, some .p, none, true, false, false, false⟩]
        else []
    else []) ++ acc) []
  push ++ dbl ++ caps

/-- Pseudo-legal moves of the piece standing on square `sq`, excluding
castling. -/
def squareGen (pos : Position) (sq : Nat) : List Move :=
  let r : Int := sq / 8
  let f : Int := sq % 8
  match pos.board.atIdx sq with
  | none => []
  | some pc =>
    if pc.color = pos.turn then
      match pc.ptype with
      | .p => pawnGen pos pc.color r f
      | pt =>
        (pieceTargets pos.board pc.color pt r f).map fun t =>
          ⟨sq, t.1, pc.color, pt, t.2, none, false, false, false, false⟩
    else []

/-- Modelled from the spec: whether any piece of color `c` attacks square
`sq` — the Rules Authority's attack test used for check detection and
castling legality. -/
def attacked (bd : Board) (c : Color) (sq : Nat) : Bool :=
  let r : Int := sq / 8
  let f : Int := sq % 8
  let knight := knightDeltas.any fun d =>
    bd.atI (r + d.1) (f + d.2) = some ⟨c, .n⟩
  let king := royalDirs.any fun d =>
    bd.atI (r + d.1) (f + d.2) = some ⟨c, .k⟩
  let pawnDir : Int := match c with | .white => 1 | .black => -1
  let pawn :=
    bd.atI (r + pawnDir) (f - 1) = some ⟨c, .p⟩ ||
    bd.atI (r + pawnDir) (f + 1) = some ⟨c, .p⟩
  let ray := fun (dr df : Int) (pts : List PType) =>
    match slideRay bd c.other 7 r f dr df with
    | [] => false
    | hits =>
      match hits.getLast? with
      | some (_, some pt) => pts.contains pt
      | _ => false
  let sliders :=
    (bishopDirs.any fun d => ray d.1 d.2 [.b, .q]) ||
    (rookDirs.any fun d => ray d.1 d.2 [.r, .q])
  knight || king || pawn || sliders

/-- Square of the king of color `c`. -/
def kingSq (bd : Board) (c : Color) : Option Nat :=
  (List.range 64).find? fun sq => bd.atIdx sq = some ⟨c, .k⟩

/-- Modelled from the spec: the Rules Authority's `isCheck` — the side to
move's king is attacked. -/
def Position.inCheck (pos : Position) : Bool :=
  match kingSq pos.board pos.turn with
  | some sq => attacked pos.board pos.turn.other sq
  | none => false

/-- Corner squares used by castling, per color. -/
def backRow (c : Color) : Nat := match c with | .white => 7 | .black => 0

/-- Modelled from the spec: applying a move to a position — the Rules
Authority's `applyMove`, covering captures, en passant, promotion, castling,
castling-rights maintenance, the en-passant target, the halfmove clock and the
fullmove number. -/
def applyMove (pos : Position) (m : Move) : Position :=
  let moved : Piece := ⟨m.color, m.promo.getD m.ptype⟩
  let bd1 := (pos.board.putIdx m.fromSq none).putIdx m.toSq (some moved)
  let bd2 :=
    if m.isEP then
      bd1.putIdx (match m.color with | .white => m.toSq + 8 | .black => m.toSq - 8) none
    else bd1
  let br := backRow m.color
  let bd3 :=
    if m.castleKs then (bd2.putIdx (br * 8 + 7) none).putIdx (br * 8 + 5) (some ⟨m.color, .r⟩)
    else if m.castleQs then (bd2.putIdx (br * 8) none).putIdx (br * 8 + 3) (some ⟨m.color, .r⟩)
    else bd2
  let clearedOwn : Bool × Bool :=
    let ks := match m.color with | .white => pos.castleWK | .black => pos.castleBK
    let qs := match m.color with | .white => pos.castleWQ | .black => pos.castleBQ
    if m.ptype = .k then (false, false)
    else (ks && !(m.fromSq = br * 8 + 7), qs && !(m.fromSq = br * 8))
  let obr := backRow m.color.other
  let clearedOpp : Bool × Bool :=
    let ks := match m.color with | .white => pos.castleBK | .black => pos.castleWK
    let qs := match m.color with | .white => pos.castleBQ | .black => pos.castleWQ
    (ks && !(m.toSq = obr * 8 + 7), qs && !(m.toSq = obr * 8))
  let epNew : Option (Fin 64) :=
    if m.isDouble then
      if h : (m.fromSq + m.toSq) / 2 < 64 then some ⟨(m.fromSq + m.toSq) / 2, h⟩ else none
    else none
  { board := bd3
    turn := pos.turn.other
    castleWK := match m.color with | .white => clearedOwn.1 | .black => clearedOpp.1
    castleWQ := match m.color with | .white => clearedOwn.2 | .black => clearedOpp.2
    castleBK := match m.color with | .white => clearedOpp.1 | .black => clearedOwn.1
    castleBQ := match m.color with | .white => clearedOpp.2 | .black => clearedOwn.2
    ep := epNew
    halfmove := if m.ptype = .p || m.captured.isSome then 0 else pos.halfmove + 1
    fullmove := match m.color with | .white => pos.fullmove | .black => pos.fullmove + 1 }

/-- Castling moves available to the side to move (generated after the piece
scan, kingside before queenside, as the Rules Authority does); the squares
between king and rook must be empty, the king must not be in check and must
not pass through an attacked square (the destination square is checked by the
general legality filter). -/
def castleGen (pos : Position) : List Move :=
  let c := pos.turn
  let br := backRow c
  let e := br * 8 + 4
  let ksRight := match c with | .white => pos.castleWK | .black => pos.castleBK
  let qsRight := match c with | .white => pos.castleWQ | .black => pos.castleBQ
  let kingHome := pos.board.atIdx e = some ⟨c, .k⟩
  let opp := c.other
  let ks :=
    if ksRight && kingHome && pos.board.atIdx (br * 8 + 7) = some ⟨c, .r⟩ &&
        (pos.board.atIdx (br * 8 + 5)).isNone && (pos.board.atIdx (br * 8 + 6)).isNone &&
        !attacked pos.board opp e && !attacked pos.board opp (br * 8 + 5) then
      [⟨e, br * 8 + 6, c, .k, none, none, false, true, false, false⟩]
    else []
  let qs :=
    if qsRight && kingHome && pos.board.atIdx (br * 8) = some ⟨c, .r⟩ &&
        (pos.board.atIdx (br * 8 + 1)).isNone && (pos.board.atIdx (br * 8 + 2)).isNone &&
        (pos.board.atIdx (br * 8 + 3)).isNone &&
        !attacked pos.board opp e && !attacked pos.board opp (br * 8 + 3) then
      [⟨e, br * 8 + 2, c, .k, none, none, false, false, true, false⟩]
    else []
  ks ++ qs

/-- All pseudo-legal moves, scanning squares a8..h1 in rank-major order (the
generation order the spec prescribes for the Rules Authority), with castling
moves appended last. -/
def pseudoMoves (pos : Position) : List Move :=
  ((List.range 64).foldr (fun sq acc => squareGen pos sq ++ acc) []) ++ castleGen pos

/-- A pseudo-legal move is legal when the mover's king is not attacked
afterwards. -/
def moveLegal (pos : Position) (m : Move) : Bool :=
  let p2 := applyMove pos m
  match kingSq p2.board pos.turn with
  | some sq => !attacked p2.board pos.turn.other sq
  | none => true

/-- Modelled from the spec: the Rules Authority's `legalMoves` (spec section
6), in its deterministic generation order. -/
def legalMoves (pos : Position) : List Move :=
  (pseudoMoves pos).filter (moveLegal pos)

/-- Modelled from the spec: the Rules Authority's `isCheckmate` — in check
with no legal move. -/
def Position.isCheckmate (pos : Position) : Bool :=
  pos.inCheck && (legalMoves pos).isEmpty

/-- Modelled from the spec: stalemate — not in check, no legal move. -/
def Position.isStalemate (pos : Position) : Bool :=
  !pos.inCheck && (legalMoves pos).isEmpty

/-- All pieces on the board, with their flat square index. -/
def piecesOn (bd : Board) : List (Nat × Piece) :=
  (List.range 64).filterMap fun sq => (bd.atIdx sq).map fun pc => (sq, pc)

/-- Modelled from the spec: the Rules Authority's insufficient-material test
(bare kings, a lone minor piece, or same-colored bishops only). -/
def insufficientMaterial (bd : Board) : Bool :=
  let ps := piecesOn bd
  let nonKings := ps.filter fun x => !(x.2.ptype = .k)
  if nonKings.isEmpty then true
  else if nonKings.length = 1 &&
      ((nonKings.map fun x => x.2.ptype) = [.n] || (nonKings.map fun x => x.2.ptype) = [.b]) then
    true
  else
    (nonKings.all fun x => x.2.ptype = .b) &&
    ((nonKings.map fun x => (x.1 / 8 + x.1 % 8) % 2).eraseDups.length ≤ 1)

/-- Modelled from the spec: the Rules Authority's `isDraw` — fifty-move rule,
stalemate, or insufficient material.  Threefold repetition depends on the move
history, which no claim exercises; it is modelled as absent. -/
def Position.isDraw (pos : Position) : Bool :=
  pos.halfmove ≥ 100 || pos.isStalemate || insufficientMaterial pos.board

/-- Modelled from the spec: the Rules Authority's `isGameOver`. -/
def Position.isGameOver (pos : Position) : Bool :=
  pos.isCheckmate || pos.isDraw

/-- File letter of a flat square index. -/
def fileChar (sq : Nat) : Char :=
  match sq % 8 with
  | 0 => 'a' | 1 => 'b' | 2 => 'c' | 3 => 'd' | 4 => 'e' | 5 => 'f' | 6 => 'g' | _ => 'h'

/-- Rank digit of a flat square index (row 0 is rank 8). -/
def rankChar (sq : Nat) : Char :=
  match sq / 8 with
  | 0 => '8' | 1 => '7' | 2 => '6' | 3 => '5' | 4 => '4' | 5 => '3' | 6 => '2' | 7 => '1'
  | _ => '0'

/-- Algebraic name of a flat square index ("a8" for 0, "h1" for 63). -/
def squareName (sq : Nat) : String :=
  String.mk [fileChar sq, rankChar sq]

/-- FEN letter for a piece. -/
def pieceChar (pc : Piece) : Char :=
  let lower : Char := match pc.ptype with
    | .p => 'p' | .n => 'n' | .b => 'b' | .r => 'r' | .q => 'q' | .k => 'k'
  match pc.color with
  | .white => lower.toUpper
  | .black => lower

/-- One step of the FEN row encoder: a piece flushes the pending empty-run
count (as decimal digits) and appends its letter; an empty square extends the
run. -/
def rowFenStep (acc : List Char × Nat) (cell : Option Piece) : List Char × Nat :=
  match cell with
  | none => (acc.1, acc.2 + 1)
  | some pc =>
    (acc.1 ++ (if acc.2 = 0 then [] else (Nat.repr acc.2).data) ++ [pieceChar pc], 0)

/-- FEN encoding of one board row: pieces as letters, empty runs as digits. -/
def rowFen (row : List (Option Piece)) : List Char :=
  let step := row.foldl rowFenStep (([] : List Char), 0)
  step.1 ++ (if step.2 = 0 then [] else (Nat.repr step.2).data)

/-- FEN piece-placement field (rows from rank 8 down, separated by '/'). -/
def placementFen : Board → List Char
  | [] => []
  | [row] => rowFen row
  | row :: rest => rowFen row ++ '/' :: placementFen rest

/-- FEN castling field. -/
def castleFen (wk wq bk bq : Bool) : List Char :=
  let s := (if wk then ['K'] else []) ++ (if wq then ['Q'] else []) ++
    (if bk then ['k'] else []) ++ (if bq then ['q'] else [])
  if s.isEmpty then ['-'] else s

/-- FEN en-passant field. -/
def epFen (ep : Option (Fin 64)) : List Char :=
  match ep with
  | none => ['-']
  | some sq => [fileChar sq, rankChar sq]

/-- Modelled from the spec: the Rules Authority's canonical position key
(spec sections 3 and 6) — the FEN serialization of the position, encoding
placement, side to move, castling rights, en-passant target and the move
counters.  This is the string `game.fen()` that the engine uses as its
evaluation-cache key. -/
def fenData (pos : Position) : List Char :=
  placementFen pos.board ++ ' ' ::
    (match pos.turn with | .white => 'w' | .black => 'b') :: ' ' ::
    (castleFen pos.castleWK pos.castleWQ pos.castleBK pos.castleBQ ++ ' ' ::
      (epFen pos.ep ++ ' ' ::
        ((Nat.repr pos.halfmove).data ++ ' ' :: (Nat.repr pos.fullmove).data)))

/-- The FEN string of a position. -/
def Position.fen (pos : Position) : String :=
  String.mk (fenData pos)

/-- Uppercase letter of a piece type (used in SAN). -/
def ptypeUpper (pt : PType) : Char :=
  match pt with
  | .p => 'P' | .n => 'N' | .b => 'B' | .r => 'R' | .q => 'Q' | .k => 'K'

/-- Lowercase letter of a piece type (used in LAN promotions). -/
def ptypeLower (pt : PType) : Char :=
  match pt with
  | .p => 'p' | .n => 'n' | .b => 'b' | .r => 'r' | .q => 'q' | .k => 'k'

/-- Modelled from the spec: SAN disambiguation — when another legal move of
the same piece type reaches the same destination from a different origin, the
origin file, rank, or full square is added, per standard algebraic notation. -/
def disambiguator (legal : List Move) (m : Move) : List Char :=
  let amb := legal.filter fun m2 =>
    m2.ptype = m.ptype && m2.toSq = m.toSq && !(m2.fromSq = m.fromSq)
  if amb.isEmpty then []
  else
    let sameRank := amb.any fun m2 => m2.fromSq / 8 = m.fromSq / 8
    let sameFile := amb.any fun m2 => m2.fromSq % 8 = m.fromSq % 8
    if sameRank && sameFile then [fileChar m.fromSq, rankChar m.fromSq]
    else if sameFile then [rankChar m.fromSq]
    else [fileChar m.fromSq]

/-- Modelled from the spec: the short algebraic notation of a legal move (the
Move's "human-readable notation", spec section 3), with '+' marking check and
'#' marking checkmate. -/
def sanOf (pos : Position) (legal : List Move) (m : Move) : String :=
  let core : List Char :=
    if m.castleKs then ['O', '-', 'O']
    else if m.castleQs then ['O', '-', 'O', '-', 'O']
    else if m.ptype = .p then
      (if m.captured.isSome then [fileChar m.fromSq, 'x'] else []) ++
      [fileChar m.toSq, rankChar m.toSq] ++
      (match m.promo with | some pr => ['=', ptypeUpper pr] | none => [])
    else
      [ptypeUpper m.ptype] ++ disambiguator legal m ++
      (if m.captured.isSome then ['x'] else []) ++
      [fileChar m.toSq, rankChar m.toSq]
  let p2 := applyMove pos m
  let suffix : List Char :=
    if p2.inCheck then (if (legalMoves p2).isEmpty then ['#'] else ['+']) else []
  String.mk (core ++ suffix)

/-- Modelled from the spec: the long algebraic notation of a move (origin
square, destination square, promotion letter), as exposed by the Rules
Authority's verbose Move objects. -/
def lanOf (m : Move) : String :=
  squareName m.fromSq ++ squareName m.toSq ++
    (match m.promo with | some pr => String.mk [ptypeLower pr] | none => "")

/-- A verbose move: the Move record decorated with its SAN and LAN strings,
as returned by the Rules Authority's `legalMoves(verbose=true)`. -/
structure VMove where
  m : Move
  san : String
  lan : String
deriving DecidableEq, Repr

/-- Modelled from the spec: `legalMoves(verbose=true)` — the legal moves in
generation order, each carrying its SAN and LAN notation. -/
def movesVerbose (pos : Position) : List VMove :=
  let legal := legalMoves pos
  legal.map fun m => ⟨m, sanOf pos legal m, lanOf m⟩

/-- Modelled from the spec: the Rules Authority's shared game object — the
current position together with the stack of previous positions, which `undo`
restores exactly (spec section 6: `applyMove`/`undoLastMove` are exact
inverses) and whose length is the ply count reported by `history()`. -/
structure GameHist where
  pos : Position
  hist : List Position
deriving DecidableEq

/-- Apply a move to the shared game, pushing the previous position. -/
def GameHist.play (g : GameHist) (m : Move) : GameHist :=
  ⟨applyMove g.pos m, g.pos :: g.hist⟩

/-- Undo the last move, restoring the pushed position (no-op on an empty
history, as in the Rules Authority). -/
def GameHist.undo (g : GameHist) : GameHist :=
  match g.hist with
  | [] => g
  | p :: rest => ⟨p, rest⟩

/-- Standard initial position. -/
def initBoard : Board :=
  let back : List PType := [.r, .n, .b, .q, .k, .b, .n, .r]
  [back.map fun pt => some ⟨Color.black, pt⟩,
   List.replicate 8 (some ⟨Color.black, .p⟩),
   List.replicate 8 none,
   List.replicate 8 none,
   List.replicate 8 none,
   List.replicate 8 none,
   List.replicate 8 (some ⟨Color.white, .p⟩),
   back.map fun pt => some ⟨Color.white, pt⟩]

/-- The standard initial starting position. -/
def initPosition : Position :=
  ⟨initBoard, .white, true, true, true, true, none, 0, 1⟩

/-- The shared game at the start of play. -/
def initGame : GameHist := ⟨initPosition, []⟩

/-! ## The engine (translated from `src/hooks/use-chess-engine.tsx`) -/

/-- Scores as JavaScript numbers: the engine mixes finite centipawn sums with
the `±Infinity` sentinels used for checkmate. -/
inductive EScore where
  | negInf
  | fin (n : Int)
  | posInf
deriving DecidableEq, Repr

/-- JavaScript `<=` on scores. -/
def EScore.le : EScore → EScore → Bool
  | .negInf, _ => true
  | _, .posInf => true
  | .fin a, .fin b => a ≤ b
  | _, _ => false

/-- JavaScript `<` on scores (strict). -/
def EScore.lt (a b : EScore) : Bool := !(EScore.le b a)

/-- JavaScript `Math.max` on scores. -/
def EScore.maxE (a b : EScore) : EScore := if EScore.le a b then b else a

/-- JavaScript `Math.min` on scores. -/
def EScore.minE (a b : EScore) : EScore := if EScore.le a b then a else b

/-- Source `PIECE_VALUES` (lines 21-28). -/
def PIECE_VALUES (pt : PType) : Int :=
  match pt with
  | .p => 100
  | .n => 320
  | .b => 330
  | .r => 500
  | .q => 900
  | .k => 20000

/-- Source `KNIGHT_SQUARE_TABLE`. -/
def KNIGHT_SQUARE_TABLE : List Int :=
  [-50,-40,-30,-30,-30,-30,-40,-50,
   -40,-20,  0,  5,  5,  0,-20,-40,
   -30,  5, 10, 15, 15, 10,  5,-30,
   -30,  0, 15, 20, 20, 15,  0,-30,
   -30,  5, 15, 20, 20, 15,  5,-30,
   -30,  0, 10, 15, 15, 10,  0,-30,
   -40,-20,  0,  0,  0,  0,-20,-40,
   -50,-40,-30,-30,-30,-30,-40,-50]

/-- Source `PAWN_SQUARE_TABLE`. -/
def PAWN_SQUARE_TABLE : List Int :=
  [0,  0,  0,  0,  0,  0,  0,  0,
   50, 50, 50, 50, 50, 50, 50, 50,
   10, 20, 20, 30, 30, 20, 20, 10,
   5,  5,  5, 25, 25,  5,  5,  5,
   0,  0,  0, 20, 20,  0,  0,  0,
   5,  0,  0,  0,  0,  0,  0,  5,
   5, 10, 10,-20,-20, 10, 10,  5,
   0,  0,  0,  0,  0,  0,  0,  0]

/-- Source `BISHOP_SQUARE_TABLE`. -/
def BISHOP_SQUARE_TABLE : List Int :=
  [-20,-10,-10,-10,-10,-10,-10,-20,
   -10,  5,  0,  0,  0,  0,  5,-10,
   -10, 10, 10, 10, 10, 10, 10,-10,
   -10,  0, 10, 10, 10, 10,  0,-10,
   -10,  5,  5, 10, 10,  5,  5,-10,
   -10,  0,  5, 10, 10,  5,  0,-10,
   -10,  0,  0,  0,  0,  0,  0,-10,
   -20,-10,-10,-10,-10,-10,-10,-20]

/-- Source `KING_SQUARE_TABLE`. -/
def KING_SQUARE_TABLE : List Int :=
  [-30,-40,-40,-50,-50,-40,-40,-30,
   -30,-40,-40,-50,-50,-40,-40,-30,
   -30,-40,-40,-50,-50,-40,-40,-30,
   -30,-40,-40,-50,-50,-40,-40,-30,
   -20,-30,-30,-40,-40,-30,-30,-20,
   -10,-20,-20,-20,-20,-20,-20,-10,
    20, 20,  0,  0,  0,  0, 20, 20,
    20, 30, 10,  0,  0, 10, 30, 20]

/-- Source `flippedTables` (lines 116-123): the same tables reversed, used
for black pieces. -/
def flippedKnight : List Int := KNIGHT_SQUARE_TABLE.reverse

/-- Reversed pawn table for black pieces. -/
def flippedPawn : List Int := PAWN_SQUARE_TABLE.reverse

/-- Reversed bishop table for black pieces. -/
def flippedBishop : List Int := BISHOP_SQUARE_TABLE.reverse

/-- Reversed king table for black pieces. -/
def flippedKing : List Int := KING_SQUARE_TABLE.reverse

/-- Source `getPieceSquareValue` (lines 126-145): piece-square bonus for a
piece at a flat square index, using reversed tables for black; rooks and
queens contribute 0. -/
def getPieceSquareValue (piece : Piece) (squareIndex : Nat) : Int :=
  match piece.color with
  | .white =>
    match piece.ptype with
    | .n => KNIGHT_SQUARE_TABLE.getD squareIndex 0
    | .p => PAWN_SQUARE_TABLE.getD squareIndex 0
    | .b => BISHOP_SQUARE_TABLE.getD squareIndex 0
    | .k => KING_SQUARE_TABLE.getD squareIndex 0
    | _ => 0
  | .black =>
    match piece.ptype with
    | .n => flippedKnight.getD squareIndex 0
    | .p => flippedPawn.getD squareIndex 0
    | .b => flippedBishop.getD squareIndex 0
    | .k => flippedKing.getD squareIndex 0
    | _ => 0

/-- The evaluation cache (source line 113: `Map<string, number>` keyed by
FEN).  Modelled as an association list; `cacheSet` prepends, and lookups find
the most recent binding, matching the JavaScript `Map` semantics. -/
def Cache := List (String × Int)
deriving DecidableEq

/-- Lookup in the evaluation cache (`evalCache.get`). -/
def cacheLookup (c : Cache) (key : String) : Option Int :=
  match List.find? (fun e => e.1 = key) c with
  | some e => some e.2
  | none => none

/-- Insert into the evaluation cache (`evalCache.set`). -/
def cacheSet (c : Cache) (key : String) (v : Int) : Cache :=
  (key, v) :: c

/-- The empty evaluation cache. -/
def emptyCache : Cache := []

/-- The inline material-plus-positional double loop of source `evaluateBoard`
(lines 164-182): for every occupied square, the signed piece value plus the
signed piece-square bonus at `rank*8+file`. -/
def boardScore (g : GameHist) : Int :=
  (List.range 8).foldl (fun s rank =>
    (List.range 8).foldl (fun s file =>
      match g.pos.board.at rank file with
      | some piece =>
        let squareIndex := rank * 8 + file
        let pieceValue := PIECE_VALUES piece.ptype
        let s := s + (match piece.color with | .white => pieceValue | .black => -pieceValue)
        let positionBonus := getPieceSquareValue piece squareIndex
        s + (match piece.color with | .white => positionBonus | .black => -positionBonus)
      | none => s) s) (0 : Int)

/-- The non-terminal score computed by source `evaluateBoard` (lines
164-192): the board sum, then `whiteMobility - blackMobility` where only the
side to move's legal-move count is non-zero, then the ±50 check adjustment. -/
def rawScore (g : GameHist) : Int :=
  let movesLen : Int := (legalMoves g.pos).length
  let whiteMobility : Int := match g.pos.turn with | .white => movesLen | .black => 0
  let blackMobility : Int := match g.pos.turn with | .black => movesLen | .white => 0
  let score := boardScore g + whiteMobility - blackMobility
  score +
    (if g.pos.inCheck then (match g.pos.turn with | .white => (-50 : Int) | .black => 50) else 0)

/-- Source `evaluateBoard` (lines 148-197): cache lookup on the FEN key,
terminal short-circuits (which bypass the cache), then the non-terminal score
`rawScore`, which is written to the cache. -/
def evaluateBoard (g : GameHist) (evalCache : Cache) : EScore × Cache :=
  let fen := g.pos.fen
  match cacheLookup evalCache fen with
  | some v => (.fin v, evalCache)
  | none =>
    if g.pos.isCheckmate then
      ((match g.pos.turn with | .white => .negInf | .black => .posInf), evalCache)
    else if g.pos.isDraw then
      (.fin 0, evalCache)
    else
      (.fin (rawScore g), cacheSet evalCache fen (rawScore g))

/-- Source `countPassedPawns` (lines 200-220): counts white pawns on board
rows 0-2 and black pawns on rows 5-7 (pawns "past the 5th rank"), per file,
and returns the difference.  Note: this helper is defined in the source but
never called. -/
def countPassedPawns (g : GameHist) : Int :=
  let counts := (List.range 8).foldl (fun acc file =>
    let w := (List.range 3).foldl (fun n rank =>
      if g.pos.board.at rank file = some ⟨Color.white, .p⟩ then n + 1 else n) acc.1
    let b := [5, 6, 7].foldl (fun n rank =>
      if g.pos.board.at rank file = some ⟨Color.black, .p⟩ then n + 1 else n) acc.2
    (w, b)) ((0 : Int), (0 : Int))
  counts.1 - counts.2

/-- Per-move heuristic used by the comparator of source `orderMoves`
(lines 223-242): 10x captured-piece value, plus promotion-piece value, plus
50 when the SAN notation contains '+' (`a.san.includes('+')`, a one-character
substring test, i.e. character membership). -/
def moveOrderScore (mv : VMove) : Int :=
  (match mv.m.captured with | some c => PIECE_VALUES c * 10 | none => 0) +
  (match mv.m.promo with | some pr => PIECE_VALUES pr | none => 0) +
  (if mv.san.data.contains '+' then 50 else 0)

/-- Insert a move into an already-processed list, placing it before the first
element whose heuristic score does not exceed it — the unique stable position
for a descending sort. -/
def stableInsert (mv : VMove) : List VMove → List VMove
  | [] => [mv]
  | x :: t =>
    if moveOrderScore mv ≥ moveOrderScore x then mv :: x :: t
    else x :: stableInsert mv t

/-- Source `orderMoves` (lines 223-242): `moves.sort((a, b) => scoreB -
scoreA)`.  `Array.prototype.sort` with a numeric comparator is a stable sort
in descending heuristic order; any stable sort computes the same list, and it
is modelled here as a stable insertion sort. -/
def orderMoves (moves : List VMove) : List VMove :=
  moves.foldr stableInsert []

/-- Source `MinimaxResult` (lines 8-11). -/
structure MinimaxResult where
  score : EScore
  move : Option VMove
deriving DecidableEq, Repr

/-- The maximizing player's loop body of source `minimax` (lines 262-286):
apply each move, return `+Infinity` immediately on checkmate, otherwise
recurse with the current alpha/beta, undo, update the running best and alpha,
and stop when `beta <= alpha`. -/
def maxLoop (recurse : EScore → EScore → GameHist → Cache → MinimaxResult × GameHist × Cache) :
    List VMove → EScore → EScore → GameHist → Cache → EScore → Option VMove →
    MinimaxResult × GameHist × Cache
  | [], _, _, g, cache, maxEval, bestMove => (⟨maxEval, bestMove⟩, g, cache)
  | move :: rest, alpha, beta, g, cache, maxEval, bestMove =>
    let g1 := g.play move.m
    if g1.pos.isCheckmate then
      (⟨.posInf, some move⟩, g1.undo, cache)
    else
      let r := recurse alpha beta g1 cache
      let evalScore := r.1.score
      let g2 := r.2.1.undo
      let cache2 := r.2.2
      let step := if EScore.lt maxEval evalScore then (evalScore, some move) else (maxEval, bestMove)
      let alpha2 := EScore.maxE alpha step.1
      if EScore.le beta alpha2 then (⟨step.1, step.2⟩, g2, cache2)
      else maxLoop recurse rest alpha2 beta g2 cache2 step.1 step.2

/-- The minimizing player's loop body of source `minimax` (lines 287-312),
symmetric to `maxLoop` with `-Infinity` on checkmate and beta updates. -/
def minLoop (recurse : EScore → EScore → GameHist → Cache → MinimaxResult × GameHist × Cache) :
    List VMove → EScore → EScore → GameHist → Cache → EScore → Option VMove →
    MinimaxResult × GameHist × Cache
  | [], _, _, g, cache, minEval, bestMove => (⟨minEval, bestMove⟩, g, cache)
  | move :: rest, alpha, beta, g, cache, minEval, bestMove =>
    let g1 := g.play move.m
    if g1.pos.isCheckmate then
      (⟨.negInf, some move⟩, g1.undo, cache)
    else
      let r := recurse alpha beta g1 cache
      let evalScore := r.1.score
      let g2 := r.2.1.undo
      let cache2 := r.2.2
      let step := if EScore.lt evalScore minEval then (evalScore, some move) else (minEval, bestMove)
      let beta2 := EScore.minE beta step.1
      if EScore.le beta2 alpha then (⟨step.1, step.2⟩, g2, cache2)
      else minLoop recurse rest alpha beta2 g2 cache2 step.1 step.2

/-- Source `minimax` (lines 245-313): fixed-depth alpha-beta minimax over the
shared game and evaluation cache.  The shared mutable `game` and `evalCache`
of the source are threaded explicitly; the returned `GameHist` is the shared
game as the recursion leaves it. -/
def minimax : Nat → EScore → EScore → Bool → GameHist → Cache →
    MinimaxResult × GameHist × Cache
  | 0, _, _, _, g, cache =>
    let e := evaluateBoard g cache
    (⟨e.1, none⟩, g, e.2)
  | depth + 1, alpha, beta, maximizingPlayer, g, cache =>
    if g.pos.isGameOver then
      let e := evaluateBoard g cache
      (⟨e.1, none⟩, g, e.2)
    else
      let moves := orderMoves (movesVerbose g.pos)
      if maximizingPlayer then
        maxLoop (fun a b g2 c2 => minimax depth a b false g2 c2) moves alpha beta g cache .negInf none
      else
        minLoop (fun a b g2 c2 => minimax depth a b true g2 c2) moves alpha beta g cache .posInf none

/-- Source `HIPPO_OPENING_BLACK` (lines 95-97). -/
def HIPPO_OPENING_BLACK : List String :=
  ["g6", "Bg7", "d6", "Nd7", "e6", "Ngf7", "b6", "Bb7"]

/-- Source `HIPPO_OPENING_WHITE` (lines 100-102). -/
def HIPPO_OPENING_WHITE : List String :=
  ["g3", "Bg2", "d3", "Nd2", "e3", "Ngf3", "b3", "Bb2"]

/-- Source `DEPTH` (line 104). -/
def DEPTH : Nat := 3

/-- Source `getHippoMove` (lines 316-344): while fewer than 8 plies have been
played, look up the scripted notation at index `floor(plyCount / 2)` of the
side-to-move's book and return the first legal move whose SAN or LAN equals
it; otherwise null. -/
def getHippoMove (g : GameHist) : Option VMove :=
  let moveCount := g.hist.length
  if moveCount < 8 then
    let openingMoves :=
      match g.pos.turn with | .white => HIPPO_OPENING_WHITE | .black => HIPPO_OPENING_BLACK
    let openingIndex := moveCount / 2
    if openingIndex < openingMoves.length then
      let hippoMove := openingMoves.getD openingIndex ""
      let legalMoves := movesVerbose g.pos
      legalMoves.find? fun m => m.san = hippoMove || m.lan = hippoMove
    else
      none
  else
    none

/-! ## The engine facade

`getEngineMove` manipulates the shared game, the React state setters
(`status`, `lastMove`, `isLoading`) and the evaluation cache.  Its hippo
branch defers work to a `setTimeout` callback whose guard is
`game.moves({verbose: true}).includes(hippoMove)`: `Array.prototype.includes`
compares object references, and each `moves()` call constructs fresh Move
objects.  To model reference identity faithfully, Move objects handed across
this boundary carry an allocation id drawn from a monotone counter; two
objects are the same JavaScript reference exactly when they have the same id.
The scheduling is single-threaded (spec section 5): the state returned by the
model is the state after the event loop has also run the deferred callback.
The optional FEN-override parameter of the source (lines 348-350) only
reloads the shared position before the steps modelled here and is not
exercised by any claim; it is omitted. -/

/-- A Move object with its JavaScript allocation identity. -/
structure AllocMove where
  data : VMove
  objId : Nat
deriving DecidableEq, Repr

/-- A `game.moves({verbose: true})` call: fresh Move objects with fresh
allocation ids. -/
def movesVerboseAlloc (g : GameHist) (ctr : Nat) : List AllocMove × Nat :=
  let ms := movesVerbose g.pos
  (ms.enum.map fun e => ⟨e.2, ctr + e.1⟩, ctr + ms.length)

/-- JavaScript `Array.prototype.includes` on Move objects: SameValueZero on
object references, i.e. allocation-id equality. -/
def jsIncludes (l : List AllocMove) (x : AllocMove) : Bool :=
  l.any fun y => y.objId = x.objId

/-- `getHippoMove` as invoked by the facade: identical to `getHippoMove`, but
returning the Move object (with its allocation id) found inside the
`game.moves({verbose: true})` array it generated. -/
def getHippoMoveA (g : GameHist) (ctr : Nat) : Option AllocMove × Nat :=
  let moveCount := g.hist.length
  if moveCount < 8 then
    let openingMoves :=
      match g.pos.turn with | .white => HIPPO_OPENING_WHITE | .black => HIPPO_OPENING_BLACK
    let openingIndex := moveCount / 2
    if openingIndex < openingMoves.length then
      let hippoMove := openingMoves.getD openingIndex ""
      let alloc := movesVerboseAlloc g ctr
      (alloc.1.find? fun m => m.data.san = hippoMove || m.data.lan = hippoMove, alloc.2)
    else
      (none, ctr)
  else
    (none, ctr)

/-- The facade's state: the shared game, the evaluation cache, the
`status`/`lastMove`/`isLoading` React state, and the allocation counter of
the JavaScript heap model. -/
structure EngineState where
  game : GameHist
  evalCache : Cache
  status : String
  lastMove : Option VMove
  isLoading : Bool
  allocCtr : Nat
deriving DecidableEq

/-- Source `getEngineMove` (lines 347-395): terminal check, busy/status
updates, opening-book attempt (whose application is guarded by the
`includes` test inside the deferred callback), else minimax at `DEPTH` with
the result applied to the shared game.  Returns the promised move and the
settled state after the deferred callbacks have run. -/
def getEngineMove (st : EngineState) : Option VMove × EngineState :=
  let g := st.game
  if g.pos.isGameOver then
    (none, { st with
      status := "Game Over: " ++ (if g.pos.isCheckmate then "Checkmate" else "Draw") })
  else
    let st1 := { st with status := "Engine thinking...", isLoading := true }
    let hippoRes := getHippoMoveA g st1.allocCtr
    match hippoRes.1 with
    | some hippoMove =>
      let fresh := movesVerboseAlloc g hippoRes.2
      let st2 :=
        if jsIncludes fresh.1 hippoMove then
          { st1 with
            game := g.play hippoMove.data.m
            lastMove := some hippoMove.data
            status := "Engine moved: " ++ hippoMove.data.san ++ " (Hippo opening)"
            isLoading := false
            allocCtr := fresh.2 }
        else
          { st1 with allocCtr := fresh.2 }
      (some hippoMove.data, st2)
    | none =>
      let res := minimax DEPTH .negInf .posInf (g.pos.turn == Color.white) g st1.evalCache
      let st2 := { st1 with
        game := res.2.1, evalCache := res.2.2, isLoading := false, allocCtr := hippoRes.2 }
      match res.1.move with
      | some mv =>
        (some mv, { st2 with
          game := st2.game.play mv.m
          lastMove := some mv
          status := "Engine moved: " ++ mv.san })
      | none =>
        (none, { st2 with status := "No valid moves available" })

/-- The facade's state as initialized by `useChessEngine` (lines 107-113). -/
def initEngineState : EngineState :=
  ⟨initGame, emptyCache, "Ready", none, false, 0⟩

/-! ## Concrete fixture positions -/

/-- Build a board from a list of (flat square index, piece) pairs. -/
def mkBoard (l : List (Nat × Piece)) : Board :=
  (List.range 8).map fun r => (List.range 8).map fun f =>
    match l.find? (fun x => x.1 = r * 8 + f) with
    | some x => some x.2
    | none => none

/-- White Kb6 and Qb7 against the black king on a8, black to move: black is
checkmated.  (FEN `k7/1Q6/1K6/8/8/8/8/8 b - - 3 30`.) -/
def matedPos : Position :=
  ⟨mkBoard [(0, ⟨Color.black, .k⟩), (9, ⟨Color.white, .q⟩), (17, ⟨Color.white, .k⟩)],
   .black, false, false, false, false, none, 3, 30⟩

/-- White Kb6 and Qh3 against the black king on a8, white to move.  White has
the mate-in-one moves Qc8# and Qh8#, but the checking moves Qh1+, Qg2+, Qf3+
and Qa3+ (each of which forces mate one move later) carry the +50 check bonus
and are examined first.  (FEN `k7/8/1K6/8/8/7Q/8/8 w - - 0 40`.) -/
def mateInOnePos : Position :=
  ⟨mkBoard [(17, ⟨Color.white, .k⟩), (47, ⟨Color.white, .q⟩), (0, ⟨Color.black, .k⟩)],
   .white, false, false, false, false, none, 0, 40⟩

/-- Black Kf8 against white Ra1, Kh1 and a white pawn on b6, black to move.
The pawn has no opposing pawn ahead on its file and no opposing pawn on the
adjacent files (there are no black pawns at all), the crafted passed-pawn
board of the claim.  (FEN `5k2/8/1P6/8/8/8/8/R6K b - - 0 20`.) -/
def pawnBoardPos : Position :=
  ⟨mkBoard [(56, ⟨Color.white, .r⟩), (63, ⟨Color.white, .k⟩), (17, ⟨Color.white, .p⟩),
            (5, ⟨Color.black, .k⟩)],
   .black, false, false, false, false, none, 0, 20⟩

/-- The identical board without the white pawn on b6.
(FEN `5k2/8/8/8/8/8/8/R6K b - - 0 20`.) -/
def noPawnBoardPos : Position :=
  ⟨mkBoard [(56, ⟨Color.white, .r⟩), (63, ⟨Color.white, .k⟩), (5, ⟨Color.black, .k⟩)],
   .black, false, false, false, false, none, 0, 20⟩

/-- The white pawn move g2-g3 of the initial position, with its notation. -/
def g3VMove : VMove :=
  ⟨⟨54, 46, .white, .p, none, none, false, false, false, false⟩, "g3", "g2g3"⟩

/-- The white queen move h3-h1 in `mateInOnePos`, a check that forces mate
next move but is not itself a mating move. -/
def qh1VMove : VMove :=
  ⟨⟨47, 63, .white, .q, none, none, false, false, false, false⟩, "Qh1+", "h3h1"⟩

/-! ## Helper lemmas -/

/-- Only `+Infinity` is at least `+Infinity`. -/
theorem escore_le_posInf {x : EScore} (h : EScore.le .posInf x = true) : x = .posInf := by
  cases x <;> simp [EScore.le] at h ⊢

/-- Only `-Infinity` is at most `-Infinity`. -/
theorem escore_le_negInf {x : EScore} (h : EScore.le x .negInf = true) : x = .negInf := by
  cases x <;> simp [EScore.le] at h ⊢

/-- `Math.max` returns one of its arguments. -/
theorem maxE_cases (a b : EScore) : EScore.maxE a b = a ∨ EScore.maxE a b = b := by
  unfold EScore.maxE
  by_cases h : EScore.le a b = true <;> simp [h]

/-- `Math.min` returns one of its arguments. -/
theorem minE_cases (a b : EScore) : EScore.minE a b = a ∨ EScore.minE a b = b := by
  unfold EScore.minE
  by_cases h : EScore.le a b = true <;> simp [h]

/-- Undoing an applied move restores the shared game exactly. -/
theorem play_undo (g : GameHist) (m : Move) : (g.play m).undo = g := rfl

/-- The maximizing loop leaves the shared game as it found it, provided the
recursion it is given does, on every path: the early checkmate return, the
alpha-beta break, and loop exhaustion. -/
theorem maxLoop_game
    (recurse : EScore → EScore → GameHist → Cache → MinimaxResult × GameHist × Cache)
    (hrec : ∀ a b g2 c2, (recurse a b g2 c2).2.1 = g2) :
    ∀ (l : List VMove) (alpha beta : EScore) (g : GameHist) (cache : Cache)
      (me : EScore) (bm : Option VMove),
      (maxLoop recurse l alpha beta g cache me bm).2.1 = g := by
  intro l
  induction l with
  | nil => intro alpha beta g cache me bm; rfl
  | cons move rest ih =>
    intro alpha beta g cache me bm
    have hg2 : ((recurse alpha beta (g.play move.m) cache).2.1).undo = g := by
      rw [hrec]; exact play_undo g move.m
    by_cases hmate : (g.play move.m).pos.isCheckmate = true
    · simp only [maxLoop, hmate, if_true]
      exact play_undo g move.m
    · simp only [maxLoop, hmate, Bool.false_eq_true, if_false]
      split <;> split
      all_goals first
        | exact hg2
        | exact ih _ _ _ _ _ _
        | (rw [hg2]; exact ih _ _ _ _ _ _)

/-- The minimizing loop leaves the shared game as it found it, under the
same hypothesis on the recursion. -/
theorem minLoop_game
    (recurse : EScore → EScore → GameHist → Cache → MinimaxResult × GameHist × Cache)
    (hrec : ∀ a b g2 c2, (recurse a b g2 c2).2.1 = g2) :
    ∀ (l : List VMove) (alpha beta : EScore) (g : GameHist) (cache : Cache)
      (me : EScore) (bm : Option VMove),
      (minLoop recurse l alpha beta g cache me bm).2.1 = g := by
  intro l
  induction l with
  | nil => intro alpha beta g cache me bm; rfl
  | cons move rest ih =>
    intro alpha beta g cache me bm
    have hg2 : ((recurse alpha beta (g.play move.m) cache).2.1).undo = g := by
      rw [hrec]; exact play_undo g move.m
    by_cases hmate : (g.play move.m).pos.isCheckmate = true
    · simp only [minLoop, hmate, if_true]
      exact play_undo g move.m
    · simp only [minLoop, hmate, Bool.false_eq_true, if_false]
      split <;> split
      all_goals first
        | exact hg2
        | exact ih _ _ _ _ _ _
        | (rw [hg2]; exact ih _ _ _ _ _ _)

/-- The search leaves the shared game exactly as it found it, at every depth
and with any alpha-beta window. -/
theorem minimax_game (d : Nat) :
    ∀ (alpha beta : EScore) (mx : Bool) (g : GameHist) (cache : Cache),
      (minimax d alpha beta mx g cache).2.1 = g := by
  induction d with
  | zero => intro alpha beta mx g cache; rfl
  | succ depth ih =>
    intro alpha beta mx g cache
    by_cases hover : g.pos.isGameOver = true
    · simp only [minimax, hover, if_true]
    · simp only [minimax, hover, Bool.false_eq_true, if_false]
      cases mx
      · simp only [Bool.false_eq_true, if_false]
        exact minLoop_game _ (fun a b g2 c2 => ih a b true g2 c2) _ _ _ _ _ _ _
      · simp only [if_true]
        exact maxLoop_game _ (fun a b g2 c2 => ih a b false g2 c2) _ _ _ _ _ _ _

/-- Inserting stably produces a permutation of consing. -/
theorem stableInsert_perm (mv : VMove) (l : List VMove) :
    (stableInsert mv l).Perm (mv :: l) := by
  induction l with
  | nil => exact List.Perm.refl _
  | cons x t ih =>
    by_cases hge : moveOrderScore mv ≥ moveOrderScore x
    · simp only [stableInsert, hge, if_true]
      exact List.Perm.refl _
    · simp only [stableInsert, hge, if_false]
      exact (ih.cons x).trans (List.Perm.swap mv x t)

/-- The move orderer returns a permutation of its input. -/
theorem orderMoves_perm (l : List VMove) : (orderMoves l).Perm l := by
  induction l with
  | nil => exact List.Perm.refl _
  | cons a t ih => exact (stableInsert_perm a (orderMoves t)).trans (ih.cons a)

/-- Stable insertion preserves descending sortedness. -/
theorem stableInsert_sorted (mv : VMove) (l : List VMove)
    (h : l.Pairwise (fun a b => moveOrderScore b ≤ moveOrderScore a)) :
    (stableInsert mv l).Pairwise (fun a b => moveOrderScore b ≤ moveOrderScore a) := by
  induction l with
  | nil => simp [stableInsert]
  | cons x t ih =>
    rcases List.pairwise_cons.mp h with ⟨hx, ht⟩
    by_cases hge : moveOrderScore mv ≥ moveOrderScore x
    · simp only [stableInsert, hge, if_true]
      refine List.pairwise_cons.mpr ⟨?_, h⟩
      intro y hy
      rcases List.mem_cons.mp hy with hy | hy
      · exact hy ▸ hge
      · exact le_trans (hx y hy) hge
    · simp only [stableInsert, hge, if_false]
      refine List.pairwise_cons.mpr ⟨?_, ih ht⟩
      intro y hy
      have hy2 : y ∈ mv :: t := (stableInsert_perm mv t).mem_iff.mp hy
      rcases List.mem_cons.mp hy2 with hy2 | hy2
      · exact hy2 ▸ le_of_lt (lt_of_not_ge hge)
      · exact hx y hy2

/-- The move orderer sorts in descending heuristic order. -/
theorem orderMoves_sorted (l : List VMove) :
    (orderMoves l).Pairwise (fun a b => moveOrderScore b ≤ moveOrderScore a) := by
  induction l with
  | nil => simp [orderMoves]
  | cons a t ih => exact stableInsert_sorted a (orderMoves t) ih

/-- Filtering any heuristic-score class commutes with stable insertion: the
inserted move lands in front of its own class and leaves every class's
internal order alone. -/
theorem filter_stableInsert (k : Int) (mv : VMove) (l : List VMove) :
    (stableInsert mv l).filter (fun x => moveOrderScore x == k) =
      (if moveOrderScore mv == k then [mv] else []) ++
        l.filter (fun x => moveOrderScore x == k) := by
  induction l with
  | nil =>
    cases hm : (moveOrderScore mv == k) <;> simp [stableInsert, List.filter, hm]
  | cons x t ih =>
    by_cases hge : moveOrderScore mv ≥ moveOrderScore x
    · cases hm : (moveOrderScore mv == k) <;>
        cases hx : (moveOrderScore x == k) <;>
        simp [stableInsert, hge, List.filter, hm, hx]
    · have hlt : moveOrderScore mv < moveOrderScore x := lt_of_not_ge hge
      cases hm : (moveOrderScore mv == k)
      · cases hx : (moveOrderScore x == k) <;>
          simp [stableInsert, hge, List.filter, hm, hx, ih]
      · have hmk : moveOrderScore mv = k := by
          exact beq_iff_eq.mp hm
        have hx : (moveOrderScore x == k) = false := by
          refine beq_eq_false_iff_ne.mpr ?_
          omega
        simp [stableInsert, hge, List.filter, hm, hx, ih]

/-- The move orderer never reorders two moves of equal heuristic score: the
restriction of its output to any score class equals the restriction of its
input. -/
theorem orderMoves_filter (k : Int) (l : List VMove) :
    (orderMoves l).filter (fun x => moveOrderScore x == k) =
      l.filter (fun x => moveOrderScore x == k) := by
  induction l with
  | nil => rfl
  | cons a t ih =>
    show (stableInsert a (orderMoves t)).filter _ = _
    rw [filter_stableInsert]
    cases ha : (moveOrderScore a == k) <;> simp [List.filter, ha, ih]

/-- Out-of-range inputs of `Nat.digitChar` all map to the asterisk. -/
theorem digitChar_eq_star (n : Nat) (h : 16 ≤ n) : Nat.digitChar n = '*' := by
  unfold Nat.digitChar
  repeat rw [if_neg (by omega)]

/-- Decimal digit characters are never the space character. -/
theorem digitChar_ne_space (n : Nat) : Nat.digitChar n ≠ ' ' := by
  by_cases h : n < 16
  · interval_cases n <;> decide
  · rw [digitChar_eq_star n (by omega)]
    decide

/-- `Nat.toDigitsCore` only prepends digit characters. -/
theorem toDigitsCore_no_space (b : Nat) :
    ∀ (fuel n : Nat) (acc : List Char), (' ' ∈ acc → False) →
      ' ' ∈ Nat.toDigitsCore b fuel n acc → False := by
  intro fuel
  induction fuel with
  | zero => intro n acc hacc hm; exact hacc hm
  | succ f ih =>
    intro n acc hacc hm
    rw [Nat.toDigitsCore] at hm
    have hd : ' ' ∈ Nat.digitChar (n % b) :: acc → False := by
      intro h
      rcases List.mem_cons.mp h with h | h
      · exact digitChar_ne_space (n % b) h.symm
      · exact hacc h
    by_cases hz : n / b = 0
    · rw [if_pos hz] at hm
      exact hd hm
    · rw [if_neg hz] at hm
      exact ih (n / b) (Nat.digitChar (n % b) :: acc) hd hm

/-- The decimal representation of a natural number contains no space. -/
theorem repr_no_space (n : Nat) : ' ' ∈ (Nat.repr n).data → False := by
  intro hm
  exact toDigitsCore_no_space 10 (n + 1) n [] (fun h => by cases h) hm

/-- FEN piece letters are never the space character. -/
theorem pieceChar_ne_space (pc : Piece) : pieceChar pc ≠ ' ' := by
  cases pc with
  | mk c t => cases c <;> cases t <;> decide

/-- The FEN row encoder's fold never emits a space. -/
theorem rowFen_fold_no_space :
    ∀ (row : List (Option Piece)) (acc : List Char × Nat), (' ' ∈ acc.1 → False) →
      ' ' ∈ (row.foldl rowFenStep acc).1 → False := by
  intro row
  induction row with
  | nil => intro acc hacc hm; exact hacc hm
  | cons cell rest ih =>
    intro acc hacc hm
    refine ih (rowFenStep acc cell) ?_ hm
    intro hm2
    cases cell with
    | none => exact hacc hm2
    | some pc =>
      rcases List.mem_append.mp hm2 with h | h
      · rcases List.mem_append.mp h with h | h
        · exact hacc h
        · by_cases hz : acc.2 = 0
          · rw [if_pos hz] at h; cases h
          · rw [if_neg hz] at h; exact repr_no_space acc.2 h
      · rcases List.mem_cons.mp h with h | h
        · exact pieceChar_ne_space pc h.symm
        · cases h

/-- A FEN row contains no space. -/
theorem rowFen_no_space (row : List (Option Piece)) : ' ' ∈ rowFen row → False := by
  intro hm
  unfold rowFen at hm
  rcases List.mem_append.mp hm with h | h
  · exact rowFen_fold_no_space row ([], 0) (fun h2 => by cases h2) h
  · by_cases hz : (row.foldl rowFenStep ([], 0)).2 = 0
    · rw [if_pos hz] at h; cases h
    · rw [if_neg hz] at h; exact repr_no_space _ h

/-- The FEN placement field contains no space. -/
theorem placementFen_no_space : ∀ (bd : Board), ' ' ∈ placementFen bd → False := by
  intro bd
  induction bd with
  | nil => intro h; cases h
  | cons row rest ih =>
    intro hm
    cases rest with
    | nil => exact rowFen_no_space row hm
    | cons r2 rr =>
      rcases List.mem_append.mp hm with h | h
      · exact rowFen_no_space row h
      · rcases List.mem_cons.mp h with h | h
        · cases h
        · exact ih h

/-- The FEN castling field contains no space. -/
theorem castleFen_no_space :
    ∀ (a b c d : Bool), ' ' ∈ castleFen a b c d → False := by decide

/-- The FEN en-passant field contains no space. -/
theorem epFen_no_space : ∀ (e : Option (Fin 64)), ' ' ∈ epFen e → False := by decide

/-- The FEN castling field determines the four castling rights. -/
theorem castleFen_inj :
    ∀ (a b c d a2 b2 c2 d2 : Bool), castleFen a b c d = castleFen a2 b2 c2 d2 →
      a = a2 ∧ b = b2 ∧ c = c2 ∧ d = d2 := by decide

/-- The FEN en-passant field determines the en-passant target. -/
theorem epFen_inj : ∀ (e1 e2 : Option (Fin 64)), epFen e1 = epFen e2 → e1 = e2 := by
  decide

/-- Splitting at the first space: two space-free prefixes followed by a space
and arbitrary tails are equal exactly component-wise. -/
theorem append_space_inj :
    ∀ (a b x y : List Char), (' ' ∈ a → False) → (' ' ∈ b → False) →
      a ++ ' ' :: x = b ++ ' ' :: y → a = b ∧ x = y := by
  intro a
  induction a with
  | nil =>
    intro b x y _ hb h
    cases b with
    | nil => exact ⟨rfl, by simpa using h⟩
    | cons c bt =>
      injection h with h1 h2
      exact absurd (List.mem_cons_self c bt) (h1 ▸ hb)
  | cons c at2 ih =>
    intro b x y ha hb h
    cases b with
    | nil =>
      injection h with h1 h2
      exact absurd (List.mem_cons_self c at2) (h1 ▸ ha)
    | cons c2 bt =>
      injection h with h1 h2
      rcases ih bt x y (fun hm => ha (List.mem_cons_of_mem c hm))
        (fun hm => hb (List.mem_cons_of_mem c2 hm)) h2 with ⟨hab, hxy⟩
      exact ⟨by rw [h1, hab], hxy⟩

/-- `find?` returns the unique element satisfying the predicate. -/
theorem find?_eq_of_unique {α : Type} (p : α → Bool) (l : List α) (m : α)
    (hm : m ∈ l) (hpm : p m = true) (huniq : ∀ x ∈ l, p x = true → x = m) :
    l.find? p = some m := by
  induction l with
  | nil => cases hm
  | cons a t ih =>
    by_cases hpa : p a = true
    · rw [List.find?_cons_of_pos _ hpa]
      exact congrArg some (huniq a (List.mem_cons_self a t) hpa)
    · rw [List.find?_cons_of_neg _ (by simpa using hpa)]
      have hmt : m ∈ t := by
        rcases List.mem_cons.mp hm with h | h
        · exact absurd (h ▸ hpm) hpa
        · exact h
      exact ih hmt fun x hx hpx => huniq x (List.mem_cons_of_mem a hx) hpx

/-- A fresh cache write is found by the next lookup of the same key. -/
theorem cacheLookup_set (c : Cache) (k : String) (v : Int) :
    cacheLookup (cacheSet c k v) k = some v := by
  simp [cacheLookup, cacheSet, List.find?]

/-- A cache write under a different key does not change a lookup. -/
theorem cacheLookup_set_ne (c : Cache) (k k2 : String) (v : Int) (h : k ≠ k2) :
    cacheLookup (cacheSet c k v) k2 = cacheLookup c k2 := by
  simp [cacheLookup, cacheSet, List.find?, h]

/-! ## Spec-side definitions

These definitions restate terms of the specification in its own words, to be
compared against the source-translated definitions above. -/

/-- The single-sided mobility policy of spec section 4.1: the side to move's
legal-move count, positive for White and negative for Black; the non-moving
side contributes nothing. -/
def mobilityTerm (pos : Position) : Int :=
  match pos.turn with
  | .white => ((legalMoves pos).length : Int)
  | .black => -((legalMoves pos).length : Int)

/-- The king-safety adjustment of spec section 4.1: a flat ±50 against the
side to move when it stands in check. -/
def checkTerm (pos : Position) : Int :=
  if pos.inCheck then (match pos.turn with | .white => (-50 : Int) | .black => 50) else 0

/-- The opening book sequence for a color (spec section 4.3). -/
def bookFor (c : Color) : List String :=
  match c with
  | .white => HIPPO_OPENING_WHITE
  | .black => HIPPO_OPENING_BLACK

/-! ## Claims -/

/-- C1, counterexample: `evaluate` on the standard initial starting position
does not return 0.  Material and positional terms cancel by symmetry, but the
single-sided mobility term contributes White's 20 legal opening moves. -/
theorem evaluate_initial_not_zero :
    (evaluateBoard initGame emptyCache).1 ≠ EScore.fin 0 := by decide

/-- C1, amended: `evaluate` on the standard initial starting position returns
exactly 20 — the cancelling material and positional sums plus the mobility
term, White's 20 legal moves. -/
theorem evaluate_initial_eq_twenty :
    (evaluateBoard initGame emptyCache).1 = EScore.fin 20 ∧
      boardScore initGame = 0 ∧ (legalMoves initPosition).length = 20 := by decide

/-- C3, counterexample: the evaluation score contains no passed-pawn term.
`pawnBoardPos` adds to `noPawnBoardPos` a single white pawn on b6 (square
index 17) with no opposing pawn anywhere, the crafted passed pawn of the
claim; the two positions have equal legal-move counts for the side to move,
yet the evaluation difference is 120 = pawn material (100) + its
piece-square bonus (20), not 120 + 50 and not 50: no ±50 passed-pawn
contribution exists. -/
theorem no_passedPawn_term_counterexample :
    (evaluateBoard ⟨pawnBoardPos, []⟩ emptyCache).1 = EScore.fin 625 ∧
    (evaluateBoard ⟨noPawnBoardPos, []⟩ emptyCache).1 = EScore.fin 505 ∧
    (legalMoves pawnBoardPos).length = (legalMoves noPawnBoardPos).length ∧
    ((piecesOn pawnBoardPos.board).all fun x => !(x.2 = ⟨Color.black, PType.p⟩)) = true ∧
    ¬((625 : Int) - 505 =
        PIECE_VALUES .p + getPieceSquareValue ⟨Color.white, .p⟩ 17 + 50) ∧
    ¬((625 : Int) - 505 = 50) := by decide

/-- C3, amended: the evaluation difference produced by the crafted passed
pawn is exactly its material value plus its piece-square bonus; the
`countPassedPawns` helper (which would report one net passed pawn here)
exists in the source but is never called by `evaluateBoard`. -/
theorem passedPawn_delta_is_material_positional :
    (625 : Int) - 505 = PIECE_VALUES .p + getPieceSquareValue ⟨Color.white, .p⟩ 17 ∧
    (evaluateBoard ⟨pawnBoardPos, []⟩ emptyCache).1 = EScore.fin 625 ∧
    (evaluateBoard ⟨noPawnBoardPos, []⟩ emptyCache).1 = EScore.fin 505 ∧
    countPassedPawns ⟨pawnBoardPos, []⟩ = 1 ∧
    countPassedPawns ⟨noPawnBoardPos, []⟩ = 0 := by decide

/-- C4, counterexample: for a terminal position — here `matedPos`, a
checkmate — `evaluateBoard` returns without writing the cache, so the second
call is *not* served from the cache: after the first evaluation the cache
still has no entry under the position's key. -/
theorem terminal_eval_bypasses_cache :
    matedPos.isCheckmate = true ∧
    (evaluateBoard ⟨matedPos, []⟩ emptyCache).1 = EScore.posInf ∧
    cacheLookup ((evaluateBoard ⟨matedPos, []⟩ emptyCache).2) matedPos.fen = none := by
  decide

/-- C4, amended: `evaluate` run twice returns identical scores for every
position (determinism), and for every *non-terminal* position the second call
is served from the evaluation cache: after the first call the cache holds the
score under the position's key.  Terminal positions bypass the cache (the
design choice noted in spec section 4.1). -/
theorem evaluate_deterministic_and_cached (g : GameHist) (c : Cache) :
    (evaluateBoard g ((evaluateBoard g c).2)).1 = (evaluateBoard g c).1 ∧
    (g.pos.isCheckmate = false → g.pos.isDraw = false →
      ∃ n : Int, cacheLookup ((evaluateBoard g c).2) g.pos.fen = some n ∧
        (evaluateBoard g c).1 = EScore.fin n) := by
  cases hl : cacheLookup c g.pos.fen with
  | some v =>
    have h1 : evaluateBoard g c = (.fin v, c) := by
      simp only [evaluateBoard, hl]
    have hc2 : (evaluateBoard g c).2 = c := by rw [h1]
    exact ⟨by rw [hc2], fun _ _ => ⟨v, by rw [hc2, hl], by rw [h1]⟩⟩
  | none =>
    by_cases hcm : g.pos.isCheckmate = true
    · have h1 : evaluateBoard g c =
          ((match g.pos.turn with | .white => .negInf | .black => .posInf), c) := by
        simp only [evaluateBoard, hl, hcm, if_true]
      have hc2 : (evaluateBoard g c).2 = c := by rw [h1]
      exact ⟨by rw [hc2], fun hcm2 _ => absurd hcm (by simp [hcm2])⟩
    · by_cases hdr : g.pos.isDraw = true
      · have h1 : evaluateBoard g c = (.fin 0, c) := by
          simp only [evaluateBoard, hl, hcm, hdr, Bool.false_eq_true, if_false, if_true]
        have hc2 : (evaluateBoard g c).2 = c := by rw [h1]
        exact ⟨by rw [hc2], fun _ hdr2 => absurd hdr (by simp [hdr2])⟩
      · have h1 : evaluateBoard g c =
            (.fin (rawScore g), cacheSet c g.pos.fen (rawScore g)) := by
          simp only [evaluateBoard, hl, hcm, hdr, Bool.false_eq_true, if_false]
        have h2 : cacheLookup ((evaluateBoard g c).2) g.pos.fen = some (rawScore g) := by
          rw [h1]
          exact cacheLookup_set c g.pos.fen (rawScore g)
        refine ⟨?_, fun _ _ => ⟨rawScore g, h2, by rw [h1]⟩⟩
        have h3 : ∀ X : Cache, cacheLookup X g.pos.fen = some (rawScore g) →
            evaluateBoard g X = (.fin (rawScore g), X) := by
          intro X hX
          simp only [evaluateBoard, hX]
        rw [h3 _ h2, h1]

/-- C4, witness: the amended theorem applied at the initial position with an
empty cache. -/
theorem evaluate_deterministic_and_cached_witness :
    (evaluateBoard initGame ((evaluateBoard initGame emptyCache).2)).1 =
      (evaluateBoard initGame emptyCache).1 ∧
    ∃ n : Int, cacheLookup ((evaluateBoard initGame emptyCache).2) initPosition.fen = some n ∧
      (evaluateBoard initGame emptyCache).1 = EScore.fin n :=
  ⟨(evaluate_deterministic_and_cached initGame emptyCache).1,
   (evaluate_deterministic_and_cached initGame emptyCache).2 (by decide) (by decide)⟩

/-- C2, at the failing input (the initial position, where the opening book
yields the legal move g3): `getEngineMove` returns the book move, but it
never applies it to the shared game — the deferred callback guards the
application with `game.moves({verbose: true}).includes(hippoMove)`, a
reference-identity test against freshly constructed Move objects that is
always false — and consequently never clears the busy flag and never updates
the status text. -/
theorem engineMove_book_branch_never_applies :
    initGame.pos.isGameOver = false ∧
    (getEngineMove initEngineState).1 = some g3VMove ∧
    (getEngineMove initEngineState).2.game = initGame ∧
    (getEngineMove initEngineState).2.isLoading = true ∧
    (getEngineMove initEngineState).2.status = "Engine thinking..." ∧
    (getEngineMove initEngineState).2.lastMove = none := by decide

/-- C7: `orderMoves` returns a permutation of its input, sorted in descending
order of the per-move heuristic (10x captured-piece value, plus
promotion-piece value, plus 50 for a '+' in the SAN notation), and moves of
equal heuristic score keep their original relative order: filtering the
output to any one score class gives exactly the input's order. -/
theorem orderMoves_spec (moves : List VMove) :
    (orderMoves moves).Perm moves ∧
    (orderMoves moves).Pairwise (fun a b => moveOrderScore b ≤ moveOrderScore a) ∧
    ∀ k : Int, (orderMoves moves).filter (fun x => moveOrderScore x == k) =
      moves.filter (fun x => moveOrderScore x == k) :=
  ⟨orderMoves_perm moves, orderMoves_sorted moves, fun k => orderMoves_filter k moves⟩

/-- C8: at every depth and alpha-beta window, the search returns the shared
position exactly as it found it — every applied move is undone before control
returns, including on the early checkmate returns and alpha-beta breaks. -/
theorem search_preserves_position (depth : Nat) (alpha beta : EScore)
    (maximizingPlayer : Bool) (g : GameHist) (cache : Cache) :
    (minimax depth alpha beta maximizingPlayer g cache).2.1 = g :=
  minimax_game depth alpha beta maximizingPlayer g cache

/-- C9: two positions with identical piece placement but different castling
rights or different en-passant targets have distinct FEN cache keys, and
caching a score under the first position's key leaves every lookup of the
second position's key unchanged — `evaluate` can never serve one position's
cached score for the other. -/
theorem cache_keys_distinct (p1 p2 : Position) (hb : p1.board = p2.board)
    (hdiff : (p1.castleWK, p1.castleWQ, p1.castleBK, p1.castleBQ) ≠
        (p2.castleWK, p2.castleWQ, p2.castleBK, p2.castleBQ) ∨ p1.ep ≠ p2.ep) :
    p1.fen ≠ p2.fen ∧
    ∀ (c : Cache) (v : Int),
      cacheLookup (cacheSet c p1.fen v) p2.fen = cacheLookup c p2.fen := by
  have hne : p1.fen ≠ p2.fen := by
    intro heq
    have hd : fenData p1 = fenData p2 := congrArg String.data heq
    unfold fenData at hd
    rw [hb] at hd
    obtain ⟨-, hd1⟩ := append_space_inj _ _ _ _
      (placementFen_no_space p2.board) (placementFen_no_space p2.board) hd
    injection hd1 with ht hd2
    injection hd2 with hsp hd3
    obtain ⟨hcst, hd4⟩ := append_space_inj _ _ _ _
      (castleFen_no_space p1.castleWK p1.castleWQ p1.castleBK p1.castleBQ)
      (castleFen_no_space p2.castleWK p2.castleWQ p2.castleBK p2.castleBQ) hd3
    obtain ⟨hep, -⟩ := append_space_inj _ _ _ _
      (epFen_no_space p1.ep) (epFen_no_space p2.ep) hd4
    rcases hdiff with hc | he
    · obtain ⟨h1, h2, h3, h4⟩ := castleFen_inj _ _ _ _ _ _ _ _ hcst
      exact hc (by rw [h1, h2, h3, h4])
    · exact he (epFen_inj _ _ hep)
  exact ⟨hne, fun c v => cacheLookup_set_ne c p1.fen p2.fen v hne⟩

/-- The initial position with the white kingside castling right removed. -/
def initNoCastleWK : Position :=
  { initPosition with castleWK := false }

/-- C9, witness: the theorem applied to the initial position and the same
placement without White's kingside castling right. -/
theorem cache_keys_distinct_witness :
    initPosition.fen ≠ initNoCastleWK.fen ∧
    ∀ (c : Cache) (v : Int),
      cacheLookup (cacheSet c initPosition.fen v) initNoCastleWK.fen =
        cacheLookup c initNoCastleWK.fen :=
  cache_keys_distinct initPosition initNoCastleWK rfl (Or.inl (by decide))

/-- C10: on a cache miss at a non-terminal position, the evaluation is the
board sum plus the single-sided mobility term — the side to move's legal-move
count, added for White and subtracted for Black, the non-moving side
contributing nothing — plus the check adjustment. -/
theorem mobility_term_single_sided (g : GameHist) (c : Cache)
    (hmiss : cacheLookup c g.pos.fen = none)
    (hcm : g.pos.isCheckmate = false) (hdr : g.pos.isDraw = false) :
    (evaluateBoard g c).1 =
      EScore.fin (boardScore g + mobilityTerm g.pos + checkTerm g.pos) := by
  have h1 : (evaluateBoard g c).1 = EScore.fin (rawScore g) := by
    simp only [evaluateBoard, hmiss, hcm, hdr, Bool.false_eq_true, if_false]
  rw [h1]
  have h2 : rawScore g = boardScore g + mobilityTerm g.pos + checkTerm g.pos := by
    cases ht : g.pos.turn <;>
      simp only [rawScore, mobilityTerm, checkTerm, ht] <;> ring
  rw [h2]

/-- Scores are reflexively comparable. -/
theorem escore_le_refl (x : EScore) : EScore.le x x = true := by
  cases x <;> simp [EScore.le]

/-- With an open window (`beta = +Infinity`) the maximizing loop reports the
`+Infinity` sentinel whenever some listed move is an immediate checkmate:
either an earlier candidate already scored `+Infinity` (triggering the
alpha-beta break with that sentinel), or the loop reaches the mating move and
returns the sentinel from the early checkmate check. -/
theorem maxLoop_mate
    (recurse : EScore → EScore → GameHist → Cache → MinimaxResult × GameHist × Cache)
    (hrec : ∀ a b g2 c2, (recurse a b g2 c2).2.1 = g2) :
    ∀ (l : List VMove) (alpha : EScore) (g : GameHist) (cache : Cache)
      (me : EScore) (bm : Option VMove),
      alpha ≠ .posInf →
      (∃ mv ∈ l, (g.play mv.m).pos.isCheckmate = true) →
      (maxLoop recurse l alpha .posInf g cache me bm).1.score = .posInf := by
  intro l
  induction l with
  | nil =>
    intro alpha g cache me bm _ hex
    rcases hex with ⟨mv, hmv, _⟩
    cases hmv
  | cons move rest ih =>
    intro alpha g cache me bm halpha hex
    by_cases hmate : (g.play move.m).pos.isCheckmate = true
    · simp [maxLoop, hmate]
    · have hrest : ∃ mv ∈ rest, (g.play mv.m).pos.isCheckmate = true := by
        rcases hex with ⟨mv, hmv, hm⟩
        rcases List.mem_cons.mp hmv with h | h
        · exact absurd (h ▸ hm) hmate
        · exact ⟨mv, h, hm⟩
      have hg2 : (recurse alpha .posInf (g.play move.m) cache).2.1.undo = g := by
        rw [hrec]; exact play_undo g move.m
      simp only [maxLoop, hmate, Bool.false_eq_true, if_false]
      split
      all_goals split
      all_goals rename_i hbr
      · have hmax := escore_le_posInf hbr
        rcases maxE_cases alpha (recurse alpha .posInf (g.play move.m) cache).1.score
          with hc | hc
        · exact absurd (hc.symm.trans hmax) halpha
        · exact hc.symm.trans hmax
      · have halpha2 :
            EScore.maxE alpha (recurse alpha .posInf (g.play move.m) cache).1.score ≠
              .posInf := by
          intro hp
          rw [hp] at hbr
          exact hbr (escore_le_refl .posInf)
        rw [hg2]
        exact ih _ g _ _ _ halpha2 hrest
      · have hmax := escore_le_posInf hbr
        rcases maxE_cases alpha me with hc | hc
        · exact absurd (hc.symm.trans hmax) halpha
        · exact hc.symm.trans hmax
      · have halpha2 : EScore.maxE alpha me ≠ .posInf := by
          intro hp
          rw [hp] at hbr
          exact hbr (escore_le_refl .posInf)
        rw [hg2]
        exact ih _ g _ _ _ halpha2 hrest

/-- The minimizing loop's mirror image: with `alpha = -Infinity`, an
immediate checkmate among the listed moves forces the `-Infinity` sentinel. -/
theorem minLoop_mate
    (recurse : EScore → EScore → GameHist → Cache → MinimaxResult × GameHist × Cache)
    (hrec : ∀ a b g2 c2, (recurse a b g2 c2).2.1 = g2) :
    ∀ (l : List VMove) (beta : EScore) (g : GameHist) (cache : Cache)
      (me : EScore) (bm : Option VMove),
      beta ≠ .negInf →
      (∃ mv ∈ l, (g.play mv.m).pos.isCheckmate = true) →
      (minLoop recurse l .negInf beta g cache me bm).1.score = .negInf := by
  intro l
  induction l with
  | nil =>
    intro beta g cache me bm _ hex
    rcases hex with ⟨mv, hmv, _⟩
    cases hmv
  | cons move rest ih =>
    intro beta g cache me bm hbeta hex
    by_cases hmate : (g.play move.m).pos.isCheckmate = true
    · simp [minLoop, hmate]
    · have hrest : ∃ mv ∈ rest, (g.play mv.m).pos.isCheckmate = true := by
        rcases hex with ⟨mv, hmv, hm⟩
        rcases List.mem_cons.mp hmv with h | h
        · exact absurd (h ▸ hm) hmate
        · exact ⟨mv, h, hm⟩
      have hg2 : (recurse .negInf beta (g.play move.m) cache).2.1.undo = g := by
        rw [hrec]; exact play_undo g move.m
      simp only [minLoop, hmate, Bool.false_eq_true, if_false]
      split
      all_goals split
      all_goals rename_i hbr
      · have hmin := escore_le_negInf hbr
        rcases minE_cases beta (recurse .negInf beta (g.play move.m) cache).1.score
          with hc | hc
        · exact absurd (hc.symm.trans hmin) hbeta
        · exact hc.symm.trans hmin
      · have hbeta2 :
            EScore.minE beta (recurse .negInf beta (g.play move.m) cache).1.score ≠
              .negInf := by
          intro hp
          rw [hp] at hbr
          exact hbr (escore_le_refl .negInf)
        rw [hg2]
        exact ih _ g _ _ _ hbeta2 hrest
      · have hmin := escore_le_negInf hbr
        rcases minE_cases beta me with hc | hc
        · exact absurd (hc.symm.trans hmin) hbeta
        · exact hc.symm.trans hmin
      · have hbeta2 : EScore.minE beta me ≠ .negInf := by
          intro hp
          rw [hp] at hbr
          exact hbr (escore_le_refl .negInf)
        rw [hg2]
        exact ih _ g _ _ _ hbeta2 hrest

/-- C5, counterexample: in `mateInOnePos` White has a mate-in-one available
(Qc8#), yet the root search at `DEPTH = 3` with the full window returns the
move Qh1+ — a check that merely forces mate next move, ordered first by the
+50 check bonus (mating notations carry '#', not '+', and get no bonus) and
scored `+Infinity` through the recursion, which triggers the alpha-beta break
before any mating move is examined.  The claim that search "returns that
mating move" is false; only the sentinel score is guaranteed. -/
theorem alphaBeta_skips_mate_in_one :
    1 ≤ DEPTH ∧ mateInOnePos.turn = Color.white ∧
    (∃ mv ∈ movesVerbose mateInOnePos, (applyMove mateInOnePos mv.m).isCheckmate = true) ∧
    (minimax DEPTH .negInf .posInf true ⟨mateInOnePos, []⟩ emptyCache).1.move =
      some qh1VMove ∧
    (applyMove mateInOnePos qh1VMove.m).isCheckmate = false := by decide

/-- C5, amended: for every non-game-over position with a mate-in-one move
available to the side to move, the root search (full window, maximizing iff
White is to move) at any depth >= 1 returns the mating side's ±Infinity
sentinel score; the accompanying move, however, need not be a mate-in-one
move (see the counterexample). -/
theorem mate_in_one_sentinel_score (g : GameHist) (cache : Cache) (d : Nat)
    (hd : 1 ≤ d) (hover : g.pos.isGameOver = false)
    (hex : ∃ m ∈ legalMoves g.pos, (applyMove g.pos m).isCheckmate = true) :
    (minimax d .negInf .posInf (g.pos.turn == Color.white) g cache).1.score =
      (if g.pos.turn == Color.white then EScore.posInf else EScore.negInf) := by
  obtain ⟨depth, rfl⟩ : ∃ k, d = k + 1 := ⟨d - 1, by omega⟩
  have hexv : ∃ mv ∈ orderMoves (movesVerbose g.pos),
      (g.play mv.m).pos.isCheckmate = true := by
    rcases hex with ⟨m, hm, hcm⟩
    refine ⟨⟨m, sanOf g.pos (legalMoves g.pos) m, lanOf m⟩, ?_, hcm⟩
    apply (orderMoves_perm _).mem_iff.mpr
    exact List.mem_map_of_mem _ hm
  cases ht : g.pos.turn
  case white =>
    show (minimax (depth + 1) .negInf .posInf true g cache).1.score = EScore.posInf
    simp only [minimax, hover, Bool.false_eq_true, if_false, eq_self_iff_true, if_true]
    exact maxLoop_mate _ (fun a b g2 c2 => minimax_game depth a b false g2 c2)
      _ _ _ _ _ _ (by decide) hexv
  case black =>
    show (minimax (depth + 1) .negInf .posInf false g cache).1.score = EScore.negInf
    simp only [minimax, hover, Bool.false_eq_true, if_false]
    exact minLoop_mate _ (fun a b g2 c2 => minimax_game depth a b true g2 c2)
      _ _ _ _ _ _ (by decide) hexv

/-- C5, witness: the amended theorem applied at `mateInOnePos` with an empty
cache at the engine's search depth. -/
theorem mate_in_one_sentinel_score_witness :
    1 ≤ DEPTH ∧ (⟨mateInOnePos, []⟩ : GameHist).pos.isGameOver = false ∧
    (∃ m ∈ legalMoves mateInOnePos, (applyMove mateInOnePos m).isCheckmate = true) ∧
    (minimax DEPTH .negInf .posInf (mateInOnePos.turn == Color.white)
        ⟨mateInOnePos, []⟩ emptyCache).1.score =
      (if mateInOnePos.turn == Color.white then EScore.posInf else EScore.negInf) :=
  ⟨by decide, by decide, by decide,
   mate_in_one_sentinel_score ⟨mateInOnePos, []⟩ emptyCache DEPTH (by decide)
     (by decide) (by decide)⟩

/-- C6: the opening-book lookup returns a move only while fewer than 8 plies
have been played; it takes the scripted notation at index
`floor(plyCount / 2)` of the side to move's book and returns the unique legal
move whose SAN or LAN equals it exactly, and returns `none` when no legal
move matches (the silent fallback). -/
theorem hippo_book_lookup_spec (g : GameHist) :
    (8 ≤ g.hist.length → getHippoMove g = none) ∧
    (g.hist.length < 8 →
      (∀ mv ∈ movesVerbose g.pos,
          (mv.san = (bookFor g.pos.turn).getD (g.hist.length / 2) "" ∨
            mv.lan = (bookFor g.pos.turn).getD (g.hist.length / 2) "") →
          (∀ mv2 ∈ movesVerbose g.pos,
            (mv2.san = (bookFor g.pos.turn).getD (g.hist.length / 2) "" ∨
              mv2.lan = (bookFor g.pos.turn).getD (g.hist.length / 2) "") → mv2 = mv) →
          getHippoMove g = some mv) ∧
      ((∀ mv ∈ movesVerbose g.pos,
          ¬(mv.san = (bookFor g.pos.turn).getD (g.hist.length / 2) "" ∨
            mv.lan = (bookFor g.pos.turn).getD (g.hist.length / 2) "")) →
        getHippoMove g = none)) := by
  by_cases hlt : g.hist.length < 8
  · have hbook : (match g.pos.turn with
        | Color.white => HIPPO_OPENING_WHITE
        | Color.black => HIPPO_OPENING_BLACK) = bookFor g.pos.turn := by
      cases g.pos.turn <;> rfl
    have hidx : g.hist.length / 2 < (bookFor g.pos.turn).length := by
      have h8 : (bookFor g.pos.turn).length = 8 := by cases g.pos.turn <;> rfl
      omega
    have hgh : getHippoMove g = (movesVerbose g.pos).find?
        (fun m => m.san = (bookFor g.pos.turn).getD (g.hist.length / 2) "" ||
                  m.lan = (bookFor g.pos.turn).getD (g.hist.length / 2) "") := by
      simp only [getHippoMove, hlt, if_true, hbook, hidx]
    refine ⟨fun h8 => absurd hlt (by omega), fun _ => ⟨?_, ?_⟩⟩
    · intro mv hmem hmatch huniq
      rw [hgh]
      apply find?_eq_of_unique _ _ mv hmem
      · simpa using hmatch
      · intro x hx hpx
        exact huniq x hx (by simpa using hpx)
    · intro hnone
      rw [hgh, List.find?_eq_none]
      intro x hx
      simpa using hnone x hx
  · refine ⟨fun _ => by simp [getHippoMove, hlt], fun h => absurd h hlt⟩

/-- C6, witness: at the initial position (0 plies played, White's book entry
"g3"), the lookup returns the unique matching legal move g2-g3. -/
theorem hippo_book_lookup_witness :
    initGame.hist.length < 8 ∧ getHippoMove initGame = some g3VMove :=
  ⟨by decide,
   (((hippo_book_lookup_spec initGame).2 (by decide)).1 g3VMove (by decide)
     (by decide) (by decide))⟩

/-- C10, witness: the theorem applied at the initial position, whose mobility
term is White's 20 legal moves. -/
theorem mobility_term_single_sided_witness :
    cacheLookup emptyCache initPosition.fen = none ∧
    initPosition.isCheckmate = false ∧ initPosition.isDraw = false ∧
    mobilityTerm initPosition = 20 ∧
    (evaluateBoard initGame emptyCache).1 =
      EScore.fin (boardScore initGame + mobilityTerm initPosition + checkTerm initPosition) :=
  ⟨by decide, by decide, by decide, by decide,
   mobility_term_single_sided initGame emptyCache (by decide) (by decide) (by decide)⟩

end ChessSpec
